import Mathlib

/-!
# Verification of `pathfinding/core/heap.py` (`SimpleHeap`)

Shallow embedding of the open-list priority queue from
`src/pathfinding/core/heap.py`, together with proofs of the spec's
testable properties.

Modelling conventions:
* Python's `heapq` module is external standard-library code; it is modelled
  by its contract: the open list is a multiset of entries (a `List Entry`)
  and `heappop` extracts a minimal entry under lexicographic tuple order,
  while `heappush` adds one entry.  Within one `SimpleHeap` instance all
  entries carry distinct `heap_order` values, so the extracted minimum is
  unique and the model is exact.
* The containers (`Graph`, `Grid`, `World`) are imports of `heap.py` that
  are not part of the sources under verification; they are modelled from
  the spec (Section 6: `lookup_by_id`, `lookup_by_xy`,
  `lookup_by_xy_and_subgrid`).
* Node cost `f` is modelled as an integer cost estimate; the ordering
  claims depend only on `f` being linearly ordered.
* A Python `assert False` (unrecognized container kind) and the unbound
  `node` variable that `pop_node` would hit on an unrecognized kind are
  modelled as `Option.none` results.
-/

/-- Modelled from the spec: an externally owned node.  Identity fields
depend on the container kind (a single id for a graph, an x/y pair for a
grid, x/y plus a sub-grid id for a world), plus a mutable numeric cost
estimate `f` and a boolean `closed` flag. -/
structure Node where
  node_id : Nat
  x : Nat
  y : Nat
  grid_id : Nat
  f : Int
  closed : Bool
deriving DecidableEq, Repr

/-- The three container kinds recognized by `SimpleHeap._get_node_tuple`,
plus `other` for any object that is none of the three (Python allows an
arbitrary object to be passed as `grid`). -/
inductive ContainerKind where
  | graph
  | grid
  | world
  | other
deriving DecidableEq, Repr

/-- Modelled from the spec: the externally owned container (`Graph`,
`Grid` or `World`, which are imported by `heap.py` but live outside the
verified sources).  It owns the nodes and exposes identity-based lookup:
`lookup_by_id(id)`, `lookup_by_xy(x, y)`,
`lookup_by_xy_and_subgrid(x, y, subgrid_id)`.  The kind tag replaces
Python's `isinstance` dispatch. -/
structure Container where
  kind : ContainerKind
  nodeById : Nat → Node
  nodeByXY : Nat → Nat → Node
  nodeByXYG : Nat → Nat → Nat → Node

/-- A heap entry: the ordering key tuple built by `_get_node_tuple`.
Python builds `(node.f, heap_order, identity...)`; the identity fields
are kept as a positional list of naturals (`[node_id]`, `[x, y]` or
`[x, y, grid_id]`), mirroring the positional tuple accesses
`node_tuple[2]`, `node_tuple[3]`, `node_tuple[4]` in `pop_node`. -/
structure Entry where
  f : Int
  heap_order : Nat
  tail : List Nat
deriving DecidableEq, Repr

/-- Lexicographic strict order on the identity tails, as Python compares
the trailing components of two key tuples. -/
def tailLt : List Nat → List Nat → Bool
  | [], [] => false
  | [], _ :: _ => true
  | _ :: _, [] => false
  | a :: as, b :: bs => a < b || (a == b && tailLt as bs)

/-- Python's lexicographic comparison of two key tuples
`(f, heap_order, identity...)`. -/
def entryLt (a b : Entry) : Bool :=
  a.f < b.f ||
    (a.f == b.f &&
      (a.heap_order < b.heap_order ||
        (a.heap_order == b.heap_order && tailLt a.tail b.tail)))

/-- `SimpleHeap._get_node_tuple`, parameterized by the container kind that
Python obtains via `isinstance` checks on `self.grid`.  The final
`assert False` branch is modelled as `none`. -/
def getNodeTupleFor (kind : ContainerKind) (node : Node) (heap_order : Nat) :
    Option Entry :=
  match kind with
  | .graph => some ⟨node.f, heap_order, [node.node_id]⟩
  | .grid => some ⟨node.f, heap_order, [node.x, node.y]⟩
  | .world => some ⟨node.f, heap_order, [node.x, node.y, node.grid_id]⟩
  | .other => none

/-- The `SimpleHeap` state: the container reference, the open list of
entries, and the insertion counter `number_pushed`. -/
structure SimpleHeap where
  grid : Container
  open_list : List Entry
  number_pushed : Nat

/-- `SimpleHeap.__init__(node, grid)`: stores the container and seeds the
open list with the start node keyed at heap order 0, with
`number_pushed = 0`.  Construction fails (assertion failure inside
`_get_node_tuple`) when the container kind is unrecognized. -/
def SimpleHeap.init (node : Node) (grid : Container) : Option SimpleHeap :=
  (getNodeTupleFor grid.kind node 0).map fun t =>
    { grid := grid, open_list := [t], number_pushed := 0 }

/-- `SimpleHeap._get_node_tuple` as the instance method. -/
def SimpleHeap.get_node_tuple (s : SimpleHeap) (node : Node)
    (heap_order : Nat) : Option Entry :=
  getNodeTupleFor s.grid.kind node heap_order

/-- `SimpleHeap.push_node(node)`: increments `number_pushed`, builds the
key tuple with the incremented counter value, and pushes it onto the
heap.  Fails (assertion) on an unrecognized container kind. -/
def SimpleHeap.push_node (s : SimpleHeap) (node : Node) : Option SimpleHeap :=
  match getNodeTupleFor s.grid.kind node (s.number_pushed + 1) with
  | some t =>
      some { s with
              number_pushed := s.number_pushed + 1,
              open_list := s.open_list ++ [t] }
  | none => none

/-- `SimpleHeap.remove_node(node, f)`: the body is `pass`; the state is
returned unchanged. -/
def SimpleHeap.remove_node (s : SimpleHeap) (node : Node) (f : Int) :
    SimpleHeap :=
  s

/-- `len(SimpleHeap)`: the physical length of the open list. -/
def SimpleHeap.len (s : SimpleHeap) : Nat :=
  s.open_list.length

/-- Extract-min helper: given a candidate `e` and the remaining entries,
return a minimal entry together with the rest.  On ties the earlier
candidate wins, which is irrelevant in reachable states because all
`heap_order` values in one instance are distinct.  This is the contract
of `heapq.heappop` on a nonempty heap. -/
def selectMin (e : Entry) : List Entry → Entry × List Entry
  | [] => (e, [])
  | x :: xs =>
      if entryLt x e then
        let p := selectMin x xs
        (p.1, e :: p.2)
      else
        let p := selectMin e xs
        (p.1, x :: p.2)

theorem selectMin_length (e : Entry) (l : List Entry) :
    (selectMin e l).2.length = l.length := by
  induction l generalizing e with
  | nil => rfl
  | cons x xs ih =>
      simp only [selectMin]
      split
      · simp [ih]
      · simp [ih]

/-- Resolve a popped key tuple back to a node via the container lookup,
exactly as the `isinstance` dispatch in `pop_node` does:
graph: `self.grid.node(node_tuple[2])`;
grid: `self.grid.node(node_tuple[2], node_tuple[3])`;
world: `self.grid.grids[node_tuple[4]].node(node_tuple[2], node_tuple[3])`.
On an unrecognized kind `pop_node` has no dispatch branch and Python
would fault on the unbound local; modelled as `none`. -/
def resolveEntry (c : Container) (e : Entry) : Option Node :=
  match c.kind with
  | .graph => some (c.nodeById (e.tail.getD 0 0))
  | .grid => some (c.nodeByXY (e.tail.getD 0 0) (e.tail.getD 1 0))
  | .world => some (c.nodeByXYG (e.tail.getD 0 0) (e.tail.getD 1 0)
      (e.tail.getD 2 0))
  | .other => none

/-- The `while self.open_list:` loop of `SimpleHeap.pop_node`: pop the
minimal entry, resolve it to a node, return it if the node is not closed,
otherwise discard the entry and continue; return the absence value when
the list is exhausted.  The outer `Option` models the Python runtime
fault reachable only with an unrecognized container kind (which
construction forbids). -/
def popLoop (c : Container) : List Entry → Option (Option Node × List Entry)
  | [] => some (none, [])
  | e :: es =>
      match resolveEntry c (selectMin e es).1 with
      | none => none
      | some node =>
          if node.closed then popLoop c (selectMin e es).2
          else some (some node, (selectMin e es).2)
termination_by l => l.length
decreasing_by
  simp only [List.length_cons, selectMin_length]
  omega

/-- `SimpleHeap.pop_node()`: runs the pop loop on the open list and
threads the shrunken list back into the state. -/
def SimpleHeap.pop_node (s : SimpleHeap) : Option (Option Node × SimpleHeap) :=
  (popLoop s.grid s.open_list).map fun p =>
    (p.1, { s with open_list := p.2 })

theorem popLoop_cons (c : Container) (e : Entry) (es : List Entry) :
    popLoop c (e :: es) =
      match resolveEntry c (selectMin e es).1 with
      | none => none
      | some node =>
          if node.closed then popLoop c (selectMin e es).2
          else some (some node, (selectMin e es).2) := by
  rw [popLoop]

theorem resolveEntry_some (c : Container) (h : c.kind ≠ ContainerKind.other)
    (e : Entry) : ∃ n, resolveEntry c e = some n := by
  cases hk : c.kind with
  | graph =>
      exact ⟨c.nodeById (e.tail.getD 0 0), by simp [resolveEntry, hk]⟩
  | grid =>
      exact ⟨c.nodeByXY (e.tail.getD 0 0) (e.tail.getD 1 0),
        by simp [resolveEntry, hk]⟩
  | world =>
      exact ⟨c.nodeByXYG (e.tail.getD 0 0) (e.tail.getD 1 0)
        (e.tail.getD 2 0), by simp [resolveEntry, hk]⟩
  | other => exact absurd hk h

/-- The full extraction sequence: the entries surfaced by repeatedly
applying extract-min until the heap is empty (closed-node filtering
aside).  The sequence of plain `heapq.heappop` results. -/
def popSeq : List Entry → List Entry
  | [] => []
  | e :: es => (selectMin e es).1 :: popSeq (selectMin e es).2
termination_by l => l.length
decreasing_by
  simp only [List.length_cons, selectMin_length]
  omega

theorem tailLt_irrefl (a : List Nat) : tailLt a a = false := by
  induction a with
  | nil => rfl
  | cons x xs ih => simp [tailLt, ih]

theorem tailLt_trans : ∀ {a b c : List Nat},
    tailLt a b = true → tailLt b c = true → tailLt a c = true := by
  intro a
  induction a with
  | nil =>
      intro b c hab hbc
      cases b with
      | nil => simp [tailLt] at hab
      | cons y ys =>
          cases c with
          | nil => simp [tailLt] at hbc
          | cons z zs => simp [tailLt]
  | cons x xs ih =>
      intro b c hab hbc
      cases b with
      | nil => simp [tailLt] at hab
      | cons y ys =>
          cases c with
          | nil => simp [tailLt] at hbc
          | cons z zs =>
              simp only [tailLt, Bool.or_eq_true, Bool.and_eq_true,
                decide_eq_true_eq, beq_iff_eq] at hab hbc ⊢
              rcases hab with h1 | ⟨h1, h1t⟩ <;> rcases hbc with h2 | ⟨h2, h2t⟩
              · left; omega
              · left; omega
              · left; omega
              · right; exact ⟨by omega, ih h1t h2t⟩

theorem tailLt_conn : ∀ {a b : List Nat},
    tailLt a b = false → tailLt b a = false → a = b := by
  intro a
  induction a with
  | nil =>
      intro b h1 h2
      cases b with
      | nil => rfl
      | cons y ys => simp [tailLt] at h1
  | cons x xs ih =>
      intro b h1 h2
      cases b with
      | nil => simp [tailLt] at h2
      | cons y ys =>
          simp only [tailLt, Bool.or_eq_false_iff, Bool.and_eq_false_iff,
            decide_eq_false_iff_not, beq_eq_false_iff_ne, ne_eq] at h1 h2
          have hxy : x = y := by omega
          subst hxy
          have ht1 : tailLt xs ys = false := by
            rcases h1.2 with h | h
            · omega
            · exact h
          have ht2 : tailLt ys xs = false := by
            rcases h2.2 with h | h
            · omega
            · exact h
          rw [ih ht1 ht2]

theorem entryLt_irrefl (a : Entry) : entryLt a a = false := by
  simp [entryLt, tailLt_irrefl]

theorem entryLt_trans {a b c : Entry} :
    entryLt a b = true → entryLt b c = true → entryLt a c = true := by
  intro h1 h2
  simp only [entryLt, Bool.or_eq_true, Bool.and_eq_true, decide_eq_true_eq,
    beq_iff_eq] at h1 h2 ⊢
  rcases h1 with h1 | ⟨hf1, h1⟩
  · rcases h2 with h2 | ⟨hf2, h2⟩
    · left; omega
    · left; omega
  · rcases h2 with h2 | ⟨hf2, h2⟩
    · left; omega
    · right
      refine ⟨by omega, ?_⟩
      rcases h1 with h1 | ⟨ho1, h1⟩
      · rcases h2 with h2 | ⟨ho2, h2⟩
        · left; omega
        · left; omega
      · rcases h2 with h2 | ⟨ho2, h2⟩
        · left; omega
        · right; exact ⟨by omega, tailLt_trans h1 h2⟩

theorem entryLt_conn {a b : Entry} :
    entryLt a b = false → entryLt b a = false → a = b := by
  intro h1 h2
  obtain ⟨fa, oa, ta⟩ := a
  obtain ⟨fb, ob, tb⟩ := b
  simp only [entryLt, Bool.or_eq_false_iff, Bool.and_eq_false_iff,
    decide_eq_false_iff_not, beq_eq_false_iff_ne, ne_eq] at h1 h2
  have hf : fa = fb := by
    have ha := h1.1
    have hb := h2.1
    omega
  subst hf
  simp only [eq_self_iff_true, not_true, false_or] at h1 h2
  have ho : oa = ob := by
    have ha := h1.2.1
    have hb := h2.2.1
    omega
  subst ho
  simp only [eq_self_iff_true, not_true, false_or] at h1 h2
  rw [tailLt_conn h1.2.2 h2.2.2]

theorem entryLt_of_lt_of_nlt {a b c : Entry} :
    entryLt a b = true → entryLt c b = false → entryLt a c = true := by
  intro h1 h2
  cases hbc : entryLt b c with
  | true => exact entryLt_trans h1 hbc
  | false =>
      have hbceq := entryLt_conn hbc h2
      rw [hbceq] at h1
      exact h1

theorem selectMin_perm (e : Entry) (l : List Entry) :
    List.Perm ((selectMin e l).1 :: (selectMin e l).2) (e :: l) := by
  induction l generalizing e with
  | nil => simp [selectMin]
  | cons x xs ih =>
      simp only [selectMin]
      split
      · exact List.Perm.trans
          (List.Perm.swap e (selectMin x xs).1 (selectMin x xs).2)
          ((ih x).cons e)
      · exact List.Perm.trans
          (List.Perm.swap x (selectMin e xs).1 (selectMin e xs).2)
          (List.Perm.trans ((ih e).cons x) (List.Perm.swap e x xs))

theorem selectMin_min (e : Entry) (l : List Entry) :
    ∀ x ∈ e :: l, entryLt x (selectMin e l).1 = false := by
  induction l generalizing e with
  | nil =>
      intro x hx
      simp only [List.mem_singleton] at hx
      subst hx
      simp [selectMin, entryLt_irrefl]
  | cons y ys ih =>
      intro x hx
      simp only [selectMin]
      split
      case isTrue hlt =>
        rcases List.mem_cons.1 hx with rfl | hx2
        · cases hEm : entryLt x (selectMin y ys).1 with
          | false => rfl
          | true =>
              have hy := ih y y (List.mem_cons_self y ys)
              have := entryLt_trans hlt hEm
              rw [hy] at this
              exact absurd this (by simp)
        · exact ih y x hx2
      case isFalse hlt =>
        rcases List.mem_cons.1 hx with heq | hx2
        · rw [heq]
          exact ih e e (List.mem_cons_self e ys)
        · rcases List.mem_cons.1 hx2 with heq | hx3
          · rw [heq]
            cases hym : entryLt y (selectMin e ys).1 with
            | false => rfl
            | true =>
                have he := ih e e (List.mem_cons_self e ys)
                have := entryLt_of_lt_of_nlt hym he
                exact absurd this hlt
          · exact ih e x (List.mem_cons_of_mem e hx3)

theorem popSeq_perm (l : List Entry) : List.Perm (popSeq l) l := by
  induction l using popSeq.induct with
  | case1 => simp [popSeq]
  | case2 e es ih =>
      rw [popSeq]
      exact List.Perm.trans (ih.cons (selectMin e es).1) (selectMin_perm e es)

/-- The extraction sequence is sorted: no later element is strictly below
an earlier one under the lexicographic key order. -/
theorem popSeq_sorted (l : List Entry) :
    (popSeq l).Pairwise (fun a b => entryLt b a = false) := by
  induction l using popSeq.induct with
  | case1 => simp [popSeq]
  | case2 e es ih =>
      rw [popSeq]
      refine List.Pairwise.cons ?_ ih
      intro b hb
      have hb2 : b ∈ (selectMin e es).2 :=
        (popSeq_perm (selectMin e es).2).mem_iff.1 hb
      have hb3 : b ∈ e :: es :=
        (selectMin_perm e es).mem_iff.1
          (List.mem_cons_of_mem (selectMin e es).1 hb2)
      exact selectMin_min e es b hb3

/-- Whether a popped entry would be returned live by `pop_node`: its node
resolves and is not closed. -/
def isLive (c : Container) (e : Entry) : Bool :=
  match resolveEntry c e with
  | some n => !n.closed
  | none => false

/-- The node a live entry resolves to, or `none` for a stale or
unresolvable entry. -/
def liveNode (c : Container) (e : Entry) : Option Node :=
  match resolveEntry c e with
  | some n => if n.closed then none else some n
  | none => none

theorem popLoop_shrinks (c : Container) (l : List Entry) (n : Node)
    (rest : List Entry) (h : popLoop c l = some (some n, rest)) :
    rest.length < l.length := by
  induction l using popSeq.induct with
  | case1 => simp [popLoop] at h
  | case2 e es ih =>
      rw [popLoop] at h
      have hlen := selectMin_length e es
      cases hres : resolveEntry c (selectMin e es).1 with
      | none => rw [hres] at h; simp at h
      | some node =>
          rw [hres] at h
          by_cases hc : node.closed = true
          · simp only [hc, if_true] at h
            have h1 := ih h
            simp only [List.length_cons]
            omega
          · simp only [hc, Bool.false_eq_true, if_false, Option.some.injEq,
              Prod.mk.injEq] at h
            simp only [List.length_cons, ← h.2]
            omega

/-- The sequence of live nodes returned by successive `pop_node` calls,
with no interleaved mutation: pop until the absence value (or a fault)
is produced, collecting the returned nodes in order. -/
def drain (c : Container) (l : List Entry) : List Node :=
  match h : popLoop c l with
  | some (some n, rest) => n :: drain c rest
  | _ => []
termination_by l.length
decreasing_by
  exact popLoop_shrinks c l _ _ h

theorem drain_of_none (c : Container) (l : List Entry)
    (h : popLoop c l = none) : drain c l = [] := by
  rw [drain]
  split <;> simp_all

theorem drain_of_absent (c : Container) (l rest : List Entry)
    (h : popLoop c l = some (none, rest)) : drain c l = [] := by
  rw [drain]
  split <;> simp_all

theorem drain_cons (c : Container) (l : List Entry) (n : Node)
    (rest : List Entry) (h : popLoop c l = some (some n, rest)) :
    drain c l = n :: drain c rest := by
  rw [drain]
  split <;> simp_all

theorem filterMap_liveNode_eq (c : Container) (l : List Entry) :
    l.filterMap (liveNode c) =
      (l.filter (isLive c)).filterMap (resolveEntry c) := by
  induction l with
  | nil => rfl
  | cons e es ih =>
      simp only [List.filterMap_cons, List.filter_cons]
      cases hres : resolveEntry c e with
      | none => simp [liveNode, isLive, hres, ih]
      | some n =>
          by_cases hc : n.closed = true
          · simp [liveNode, isLive, hres, hc, ih]
          · simp [liveNode, isLive, hres, hc, ih, List.filterMap_cons]

theorem drain_eq_filterMap (c : Container)
    (h : c.kind ≠ ContainerKind.other) (l : List Entry) :
    drain c l = (popSeq l).filterMap (liveNode c) := by
  induction l using popSeq.induct with
  | case1 =>
      rw [popSeq, drain_of_absent c [] [] (by simp [popLoop])]
      rfl
  | case2 e es ih =>
      rw [popSeq]
      obtain ⟨n, hres⟩ := resolveEntry_some c h (selectMin e es).1
      by_cases hc : n.closed = true
      · have hpop : popLoop c (e :: es) = popLoop c (selectMin e es).2 := by
          rw [popLoop_cons, hres]
          simp only [hc, if_true]
        have hd : drain c (e :: es) = drain c (selectMin e es).2 := by
          cases hp2 : popLoop c (selectMin e es).2 with
          | none =>
              rw [drain_of_none c _ (by rw [hpop, hp2]),
                drain_of_none c _ hp2]
          | some pr =>
              obtain ⟨o, rest⟩ := pr
              cases o with
              | none =>
                  rw [drain_of_absent c _ rest (by rw [hpop, hp2]),
                    drain_of_absent c _ rest hp2]
              | some n2 =>
                  rw [drain_cons c _ n2 rest (by rw [hpop, hp2]),
                    drain_cons c _ n2 rest hp2]
        rw [hd, ih, List.filterMap_cons]
        simp [liveNode, hres, hc]
      · have hpop : popLoop c (e :: es) =
            some (some n, (selectMin e es).2) := by
          rw [popLoop_cons, hres]
          simp only [hc, Bool.false_eq_true, if_false]
        rw [drain_cons c _ n (selectMin e es).2 hpop, ih, List.filterMap_cons]
        simp [liveNode, hres, hc]

theorem popLoop_all_closed (c : Container) (l : List Entry)
    (h : ∀ e ∈ l, ∃ n, resolveEntry c e = some n ∧ n.closed = true) :
    popLoop c l = some (none, []) := by
  induction l using popSeq.induct with
  | case1 => simp [popLoop]
  | case2 e es ih =>
      have hm : (selectMin e es).1 ∈ e :: es :=
        (selectMin_perm e es).mem_iff.1
          (List.mem_cons_self (selectMin e es).1 (selectMin e es).2)
      obtain ⟨n, hres, hc⟩ := h (selectMin e es).1 hm
      rw [popLoop_cons, hres]
      simp only [hc, if_true]
      refine ih ?_
      intro x hx
      refine h x ?_
      exact (selectMin_perm e es).mem_iff.1 (List.mem_cons_of_mem _ hx)

theorem push_node_spec (s : SimpleHeap) (node : Node)
    (h : s.grid.kind ≠ ContainerKind.other) :
    ∃ t : Entry,
      getNodeTupleFor s.grid.kind node (s.number_pushed + 1) = some t ∧
      t.f = node.f ∧ t.heap_order = s.number_pushed + 1 ∧
      s.push_node node =
        some { grid := s.grid, open_list := s.open_list ++ [t],
               number_pushed := s.number_pushed + 1 } := by
  cases hk : s.grid.kind with
  | graph =>
      refine ⟨⟨node.f, s.number_pushed + 1, [node.node_id]⟩, ?_, rfl, rfl, ?_⟩
      · simp [getNodeTupleFor, hk]
      · simp [SimpleHeap.push_node, getNodeTupleFor, hk]
  | grid =>
      refine ⟨⟨node.f, s.number_pushed + 1, [node.x, node.y]⟩, ?_, rfl, rfl, ?_⟩
      · simp [getNodeTupleFor, hk]
      · simp [SimpleHeap.push_node, getNodeTupleFor, hk]
  | world =>
      refine ⟨⟨node.f, s.number_pushed + 1, [node.x, node.y, node.grid_id]⟩,
        ?_, rfl, rfl, ?_⟩
      · simp [getNodeTupleFor, hk]
      · simp [SimpleHeap.push_node, getNodeTupleFor, hk]
  | other => exact absurd hk h

/-- A concrete grid node at (0, 0) with cost `f = 5`, not closed. -/
def nodeA : Node := ⟨0, 0, 0, 0, 5, false⟩

/-- Node B at (1, 1) with cost `f = 3`, not closed. -/
def nB3 : Node := ⟨1, 1, 1, 0, 3, false⟩

/-- Node A after its cost is revised down to `f = 2`. -/
def nA2 : Node := ⟨0, 0, 0, 0, 2, false⟩

/-- Node A (cost 2) after the driver marks it closed. -/
def nA2c : Node := ⟨0, 0, 0, 0, 2, true⟩

/-- Node B (cost 3) after the driver marks it closed. -/
def nB3c : Node := ⟨1, 1, 1, 0, 3, true⟩

/-- A concrete single-grid container: every lookup returns `nodeA`. -/
def gridA : Container :=
  ⟨ContainerKind.grid, fun _ => nodeA, fun _ _ => nodeA, fun _ _ _ => nodeA⟩

/-- A two-node single-grid container: `(x, y)` with `x = 0` resolves to
`a` (node A), anything else to `b` (node B).  Successive container values
model the externally owned nodes being mutated by the driver (cost
revision, closing). -/
def gridAB (a b : Node) : Container :=
  ⟨ContainerKind.grid, fun _ => a, fun x _ => if x = 0 then a else b,
    fun _ _ _ => a⟩

/-- Scenario container: A open with `f = 5`, B open with `f = 3`. -/
def cAB0 : Container := gridAB nodeA nB3

/-- Scenario container after A's cost is revised to `f = 2`. -/
def cAB1 : Container := gridAB nA2 nB3

/-- Scenario container after the driver closes A. -/
def cAB2 : Container := gridAB nA2c nB3

/-- Scenario container after the driver also closes B. -/
def cAB3 : Container := gridAB nA2c nB3c

/-- The driver-side loop of the spec's bounded-retention regression test:
push the same node `n` times in a row. -/
def pushN (s : SimpleHeap) (node : Node) : Nat → Option SimpleHeap
  | 0 => some s
  | n + 1 => (pushN s node n).bind fun s2 => s2.push_node node

theorem pushN_spec (node : Node) (s : SimpleHeap)
    (h : s.grid.kind ≠ ContainerKind.other) (n : Nat) :
    ∃ s2 : SimpleHeap, pushN s node n = some s2 ∧ s2.grid = s.grid ∧
      s2.len = s.len + n := by
  induction n with
  | zero => exact ⟨s, rfl, rfl, rfl⟩
  | succ n ih =>
      obtain ⟨s2, hp, hg, hl⟩ := ih
      have h2 : s2.grid.kind ≠ ContainerKind.other := by rw [hg]; exact h
      obtain ⟨t, ht, htf, hto, hpush⟩ := push_node_spec s2 node h2
      refine ⟨{ grid := s2.grid, open_list := s2.open_list ++ [t],
                number_pushed := s2.number_pushed + 1 }, ?_, hg, ?_⟩
      · rw [pushN, hp]
        exact hpush
      · simp only [SimpleHeap.len, List.length_append, List.length_singleton]
        simp only [SimpleHeap.len] at hl
        omega

/-- C1 (code_bug evidence): bounded retention FAILS on the code.  With a
single node (K = 1) re-pushed `n` times onto a freshly constructed open
list, with the node never closed and every push representing a cost
revision, the number of physically retained entries is `n + 1`: it grows
linearly with the number of redundant pushes instead of staying bounded
by a small constant, because `push_node` always inserts a fresh entry and
`remove_node` is a no-op. -/
theorem retention_grows_linearly (n : Nat) :
    ∃ s0 s : SimpleHeap,
      SimpleHeap.init nodeA gridA = some s0 ∧
      pushN s0 nodeA n = some s ∧
      s.len = n + 1 := by
  obtain ⟨s, hp, _, hl⟩ :=
    pushN_spec nodeA ⟨gridA, [⟨5, 0, [0, 0]⟩], 0⟩ (by decide) n
  refine ⟨⟨gridA, [⟨5, 0, [0, 0]⟩], 0⟩, s, rfl, hp, ?_⟩
  have h1 : (⟨gridA, [⟨5, 0, [0, 0]⟩], 0⟩ : SimpleHeap).len = 1 := rfl
  rw [h1] at hl
  omega

/-- C2 (code_bug evidence): remove effectiveness FAILS on the code.
Seed an open list with `nodeA` (f = 5, not closed), call
`remove_node(nodeA, 5)`, never re-push and never close the node: the very
next `pop_node` still returns `nodeA` as a live result, because
`remove_node` is `pass`. -/
theorem remove_ineffective :
    ∃ s0 : SimpleHeap,
      SimpleHeap.init nodeA gridA = some s0 ∧
      ((s0.remove_node nodeA 5).pop_node).map Prod.fst =
        some (some nodeA) := by
  refine ⟨⟨gridA, [⟨5, 0, [0, 0]⟩], 0⟩, rfl, ?_⟩
  unfold SimpleHeap.remove_node SimpleHeap.pop_node
  rw [popLoop_cons]
  simp [selectMin, resolveEntry, gridA, nodeA]

/-- C7: constructing an open list (or building an ordering key) over a
container that is not one of the three recognized kinds fails immediately
with an assertion failure (modelled as `none`), and recognized kinds
never fail: there is no silent fallback to any addressing scheme. -/
theorem init_fail_fast_unrecognized (node : Node) (grid : Container)
    (heap_order : Nat) :
    (SimpleHeap.init node grid = none ↔
        grid.kind = ContainerKind.other) ∧
    (getNodeTupleFor grid.kind node heap_order = none ↔
        grid.kind = ContainerKind.other) := by
  cases hk : grid.kind <;>
    simp [SimpleHeap.init, getNodeTupleFor, hk]

/-- C8: push contract.  On any state whose container kind is recognized,
`push_node` builds exactly one entry via the adapter, keyed by the node's
current `f` and the next insertion-order value `number_pushed + 1`,
appends it to the open list, and increments the counter; the container
reference is unchanged and (the embedding being pure) no node is
mutated. -/
theorem push_contract (s : SimpleHeap) (node : Node)
    (h : s.grid.kind ≠ ContainerKind.other) :
    ∃ t : Entry,
      s.get_node_tuple node (s.number_pushed + 1) = some t ∧
      t.f = node.f ∧ t.heap_order = s.number_pushed + 1 ∧
      s.push_node node =
        some { grid := s.grid, open_list := s.open_list ++ [t],
               number_pushed := s.number_pushed + 1 } := by
  obtain ⟨t, ht, htf, hto, hp⟩ := push_node_spec s node h
  exact ⟨t, ht, htf, hto, hp⟩

/-- Witness for C8 at a concrete state: an empty grid-kind open list and
the concrete node `nodeA`. -/
theorem push_contract_witness :
    (⟨gridA, [], 0⟩ : SimpleHeap).grid.kind ≠ ContainerKind.other ∧
    ∃ t : Entry,
      SimpleHeap.get_node_tuple ⟨gridA, [], 0⟩ nodeA
          ((⟨gridA, [], 0⟩ : SimpleHeap).number_pushed + 1) = some t ∧
      t.f = nodeA.f ∧
      t.heap_order = (⟨gridA, [], 0⟩ : SimpleHeap).number_pushed + 1 ∧
      SimpleHeap.push_node ⟨gridA, [], 0⟩ nodeA =
        some { grid := (⟨gridA, [], 0⟩ : SimpleHeap).grid,
               open_list := (⟨gridA, [], 0⟩ : SimpleHeap).open_list ++ [t],
               number_pushed :=
                 (⟨gridA, [], 0⟩ : SimpleHeap).number_pushed + 1 } :=
  ⟨by decide, push_contract ⟨gridA, [], 0⟩ nodeA (by decide)⟩

/-- C10: `remove_node` leaves the entire open-list state unchanged for
every node and every `f` argument: the whole state, the entry collection,
the insertion counter, the container reference and the reported size are
all identical before and after the call (and the node, externally owned,
is untouched). -/
theorem remove_node_is_noop (s : SimpleHeap) (node : Node) (f : Int) :
    s.remove_node node f = s ∧
    (s.remove_node node f).open_list = s.open_list ∧
    (s.remove_node node f).number_pushed = s.number_pushed ∧
    (s.remove_node node f).grid = s.grid ∧
    (s.remove_node node f).len = s.len :=
  ⟨rfl, rfl, rfl, rfl, rfl⟩

/-- C6: exhaustion signal.  `pop_node` never faults and returns the
explicit absence value `none` whenever every physically retained entry
resolves to a closed node — in particular on a fully-stale open list
whose `len` is still positive — and on the empty open list (the
hypothesis is then vacuous). -/
theorem pop_exhaustion_absence (s : SimpleHeap)
    (h : ∀ e ∈ s.open_list, ∃ n, resolveEntry s.grid e = some n ∧
        n.closed = true) :
    s.pop_node = some (none, { s with open_list := [] }) := by
  unfold SimpleHeap.pop_node
  rw [popLoop_all_closed s.grid s.open_list h]
  rfl

/-- Witness for C6: a one-entry open list whose only node is closed; its
`len` is still positive, yet `pop_node` returns the absence value. -/
theorem pop_exhaustion_absence_witness :
    (∀ e ∈ (⟨cAB3, [⟨2, 0, [0, 0]⟩], 0⟩ : SimpleHeap).open_list,
        ∃ n, resolveEntry (⟨cAB3, [⟨2, 0, [0, 0]⟩], 0⟩ : SimpleHeap).grid e =
          some n ∧ n.closed = true) ∧
    (0 < (⟨cAB3, [⟨2, 0, [0, 0]⟩], 0⟩ : SimpleHeap).len ∧
      SimpleHeap.pop_node ⟨cAB3, [⟨2, 0, [0, 0]⟩], 0⟩ =
        some (none, ⟨cAB3, [], 0⟩)) := by
  have hyp : ∀ e ∈ (⟨cAB3, [⟨2, 0, [0, 0]⟩], 0⟩ : SimpleHeap).open_list,
      ∃ n, resolveEntry (⟨cAB3, [⟨2, 0, [0, 0]⟩], 0⟩ : SimpleHeap).grid e =
        some n ∧ n.closed = true := by
    intro e he
    simp only [List.mem_singleton] at he
    subst he
    exact ⟨nA2c, rfl, rfl⟩
  exact ⟨hyp, by decide,
    pop_exhaustion_absence ⟨cAB3, [⟨2, 0, [0, 0]⟩], 0⟩ hyp⟩

/-- C9: single-start scenario.  For an open list constructed with a
single start node that is not closed (with the container resolving the
seeded entry back to that node, per the well-formedness contract of
Section 7 of the spec), the first `pop_node` returns the start node and
an immediately following `pop_node` returns the absence value. -/
theorem single_start_scenario (node : Node) (grid : Container)
    (s : SimpleHeap) (hclosed : node.closed = false)
    (hinit : SimpleHeap.init node grid = some s)
    (hres : ∀ e ∈ s.open_list, resolveEntry grid e = some node) :
    ∃ s1 : SimpleHeap,
      s.pop_node = some (some node, s1) ∧
      s1.pop_node = some (none, s1) := by
  unfold SimpleHeap.init at hinit
  cases ht : getNodeTupleFor grid.kind node 0 with
  | none => rw [ht] at hinit; simp at hinit
  | some t =>
      rw [ht] at hinit
      simp only [Option.map_some', Option.some.injEq] at hinit
      subst hinit
      have hres1 : resolveEntry grid t = some node :=
        hres t (List.mem_cons_self t [])
      refine ⟨⟨grid, [], 0⟩, ?_, ?_⟩
      · unfold SimpleHeap.pop_node
        rw [popLoop_cons]
        simp [selectMin, hres1, hclosed]
      · unfold SimpleHeap.pop_node
        rw [popLoop]
        rfl

/-- Witness for C9: the concrete start node `nodeA` on the concrete
container `gridA`. -/
theorem single_start_scenario_witness :
    (nodeA.closed = false ∧
      SimpleHeap.init nodeA gridA = some ⟨gridA, [⟨5, 0, [0, 0]⟩], 0⟩ ∧
      ∀ e ∈ (⟨gridA, [⟨5, 0, [0, 0]⟩], 0⟩ : SimpleHeap).open_list,
        resolveEntry gridA e = some nodeA) ∧
    ∃ s1 : SimpleHeap,
      SimpleHeap.pop_node ⟨gridA, [⟨5, 0, [0, 0]⟩], 0⟩ =
        some (some nodeA, s1) ∧
      s1.pop_node = some (none, s1) := by
  have hres : ∀ e ∈ (⟨gridA, [⟨5, 0, [0, 0]⟩], 0⟩ : SimpleHeap).open_list,
      resolveEntry gridA e = some nodeA := by
    intro e he
    simp only [List.mem_singleton] at he
    subst he
    rfl
  exact ⟨⟨rfl, rfl, hres⟩,
    single_start_scenario nodeA gridA ⟨gridA, [⟨5, 0, [0, 0]⟩], 0⟩ rfl rfl hres⟩

/-- C3: cost-revision scenario, run under the driver discipline of
Section 4.3 of the spec (the driver marks each popped node closed before
the next pop; node mutation is modelled by the updated containers
`cAB1`, `cAB2`, `cAB3`).  Seed A with `f = 5` (order 0), push B with
`f = 3` (order 1), revise A via `remove_node(A, 5)` (a no-op) followed by
`push_node(A)` with `f = 2` (order 2): `pop_node` returns A (f = 2)
first, then B (f = 3), and the stale A entry keyed with `f = 5` never
surfaces as a live result — the final pop discards it (A being closed by
then) and returns the absence value. -/
theorem cost_revision_scenario :
    SimpleHeap.init nodeA cAB0 = some ⟨cAB0, [⟨5, 0, [0, 0]⟩], 0⟩ ∧
    SimpleHeap.push_node ⟨cAB0, [⟨5, 0, [0, 0]⟩], 0⟩ nB3 =
      some ⟨cAB0, [⟨5, 0, [0, 0]⟩, ⟨3, 1, [1, 1]⟩], 1⟩ ∧
    SimpleHeap.remove_node ⟨cAB0, [⟨5, 0, [0, 0]⟩, ⟨3, 1, [1, 1]⟩], 1⟩
        nodeA 5 =
      ⟨cAB0, [⟨5, 0, [0, 0]⟩, ⟨3, 1, [1, 1]⟩], 1⟩ ∧
    SimpleHeap.push_node ⟨cAB1, [⟨5, 0, [0, 0]⟩, ⟨3, 1, [1, 1]⟩], 1⟩ nA2 =
      some ⟨cAB1, [⟨5, 0, [0, 0]⟩, ⟨3, 1, [1, 1]⟩, ⟨2, 2, [0, 0]⟩], 2⟩ ∧
    SimpleHeap.pop_node
        ⟨cAB1, [⟨5, 0, [0, 0]⟩, ⟨3, 1, [1, 1]⟩, ⟨2, 2, [0, 0]⟩], 2⟩ =
      some (some nA2, ⟨cAB1, [⟨5, 0, [0, 0]⟩, ⟨3, 1, [1, 1]⟩], 2⟩) ∧
    SimpleHeap.pop_node ⟨cAB2, [⟨5, 0, [0, 0]⟩, ⟨3, 1, [1, 1]⟩], 2⟩ =
      some (some nB3, ⟨cAB2, [⟨5, 0, [0, 0]⟩], 2⟩) ∧
    SimpleHeap.pop_node ⟨cAB3, [⟨5, 0, [0, 0]⟩], 2⟩ =
      some (none, ⟨cAB3, [], 2⟩) := by
  refine ⟨rfl, rfl, rfl, rfl, ?_, ?_, ?_⟩
  · unfold SimpleHeap.pop_node
    rw [popLoop_cons]
    simp [selectMin, entryLt, tailLt, resolveEntry, cAB1, gridAB, nA2]
  · unfold SimpleHeap.pop_node
    rw [popLoop_cons]
    simp [selectMin, entryLt, tailLt, resolveEntry, cAB2, gridAB, nB3]
  · unfold SimpleHeap.pop_node
    rw [popLoop_cons]
    simp [popLoop, selectMin, entryLt, tailLt, resolveEntry, cAB3, gridAB,
      nA2c]

/-- C4: ordering.  For any open list contents (hence for any sequence of
pushes) over a recognized container, the nodes returned by successive
`pop_node` calls are exactly the resolutions of the surfaced live entries
(stale/closed entries being skipped), and those surfaced entries carry
nondecreasing `f` values as assigned at push time. -/
theorem pop_returns_nondecreasing_f (c : Container)
    (h : c.kind ≠ ContainerKind.other) (l : List Entry) :
    drain c l =
      ((popSeq l).filter (isLive c)).filterMap (resolveEntry c) ∧
    ((popSeq l).filter (isLive c)).Pairwise (fun a b => a.f ≤ b.f) := by
  constructor
  · rw [drain_eq_filterMap c h l, filterMap_liveNode_eq]
  · refine List.Pairwise.filter _ ?_
    refine (popSeq_sorted l).imp ?_
    intro a b hab
    simp only [entryLt, Bool.or_eq_false_iff, Bool.and_eq_false_iff,
      decide_eq_false_iff_not] at hab
    have := hab.1
    omega

/-- Witness for C4: the two-node container with a concrete open list. -/
theorem pop_returns_nondecreasing_f_witness :
    cAB0.kind ≠ ContainerKind.other ∧
    (drain cAB0 [⟨5, 0, [0, 0]⟩, ⟨3, 1, [1, 1]⟩] =
        ((popSeq [⟨5, 0, [0, 0]⟩, ⟨3, 1, [1, 1]⟩]).filter
          (isLive cAB0)).filterMap (resolveEntry cAB0) ∧
      ((popSeq [⟨5, 0, [0, 0]⟩, ⟨3, 1, [1, 1]⟩]).filter
        (isLive cAB0)).Pairwise (fun a b => a.f ≤ b.f)) :=
  ⟨by decide,
    pop_returns_nondecreasing_f cAB0 (by decide)
      [⟨5, 0, [0, 0]⟩, ⟨3, 1, [1, 1]⟩]⟩

/-- C5: tie-break stability.  For any two entries in the open list with
equal `f` and distinct insertion orders (the entry pushed first having
the smaller `heap_order`, since the counter is strictly increasing), the
earlier-pushed entry surfaces strictly before the later one in the full
extraction sequence, independent of heap implementation details, because
keys compare lexicographically on `(f, insertion_order, ...)`. -/
theorem tie_break_stability (l : List Entry) (e1 e2 : Entry)
    (h1 : e1 ∈ l) (h2 : e2 ∈ l) (hf : e1.f = e2.f)
    (ho : e1.heap_order < e2.heap_order) :
    e1 ∈ popSeq l ∧ e2 ∈ popSeq l ∧
      ∀ i j : Fin (popSeq l).length,
        (popSeq l).get i = e1 → (popSeq l).get j = e2 →
          (i : Nat) < (j : Nat) := by
  have hperm := popSeq_perm l
  refine ⟨hperm.mem_iff.2 h1, hperm.mem_iff.2 h2, ?_⟩
  intro i j hi hj
  have hs := popSeq_sorted l
  have hlt : entryLt e1 e2 = true := by
    simp [entryLt, hf, ho]
  rcases Nat.lt_trichotomy (i : Nat) (j : Nat) with hij | hij | hij
  · exact hij
  · exfalso
    have heq : e1 = e2 := by
      rw [← hi, ← hj]
      congr 1
      exact Fin.ext hij
    rw [heq] at ho
    exact absurd ho (lt_irrefl _)
  · exfalso
    have hp := List.pairwise_iff_get.1 hs j i (Fin.lt_def.2 hij)
    rw [hi, hj] at hp
    rw [hp] at hlt
    exact absurd hlt (by simp)

/-- Witness for C5: two equal-`f` entries, the later-pushed one listed
first, surface in push order. -/
theorem tie_break_stability_witness :
    ((⟨5, 1, [7]⟩ : Entry) ∈ [(⟨5, 2, [9]⟩ : Entry), ⟨5, 1, [7]⟩] ∧
      (⟨5, 2, [9]⟩ : Entry) ∈ [(⟨5, 2, [9]⟩ : Entry), ⟨5, 1, [7]⟩] ∧
      (⟨5, 1, [7]⟩ : Entry).f = (⟨5, 2, [9]⟩ : Entry).f ∧
      (⟨5, 1, [7]⟩ : Entry).heap_order < (⟨5, 2, [9]⟩ : Entry).heap_order) ∧
    ((⟨5, 1, [7]⟩ : Entry) ∈ popSeq [(⟨5, 2, [9]⟩ : Entry), ⟨5, 1, [7]⟩] ∧
      (⟨5, 2, [9]⟩ : Entry) ∈ popSeq [(⟨5, 2, [9]⟩ : Entry), ⟨5, 1, [7]⟩] ∧
      ∀ i j : Fin (popSeq [(⟨5, 2, [9]⟩ : Entry), ⟨5, 1, [7]⟩]).length,
        (popSeq [(⟨5, 2, [9]⟩ : Entry), ⟨5, 1, [7]⟩]).get i = ⟨5, 1, [7]⟩ →
        (popSeq [(⟨5, 2, [9]⟩ : Entry), ⟨5, 1, [7]⟩]).get j = ⟨5, 2, [9]⟩ →
          (i : Nat) < (j : Nat)) :=
  ⟨⟨by decide, by decide, rfl, by decide⟩,
    tie_break_stability [⟨5, 2, [9]⟩, ⟨5, 1, [7]⟩] ⟨5, 1, [7]⟩ ⟨5, 2, [9]⟩
      (by decide) (by decide) rfl (by decide)⟩
